import Mathlib

/-!
Shallow embedding of the dedalus spectral-field core:
`dedalus/data_objects/hermitianize.py` and
`dedalus/data_objects/fourier_data.py`.

Complex numpy arrays are modelled as functions from an index type to `ℂ`
(`ZMod n` for the hermitianize arrays, where wrap-around index pairing
`k ↦ -k` matters; `Fin n` for field buffers).  Float64 arithmetic is
idealized as real/complex arithmetic; `numpy.finfo(complex128).eps` is the
exact rational `2⁻⁵²`.
-/

open Complex Finset

noncomputable section

/-- Complex conjugation (numpy `.conj()`). -/
def cconj (z : ℂ) : ℂ := (starRingEnd ℂ) z

/-- numpy `x.imag = 0`: keep the real part, zero the imaginary part. -/
def setIm0 (z : ℂ) : ℂ := (z.re : ℂ)

/-- In-place `data[i].imag = 0` on one entry of an array. -/
def reAt {α : Type} [DecidableEq α] (i : α) (f : α → ℂ) : α → ℂ :=
  Function.update f i (setIm0 (f i))

/-! ### Serial `enforce_hermitian` (hermitianize.py, lines 66-90)

The source is dimension generic over views; the claims restrict it to 1-3
axes with even sample counts, so it is embedded here as three functions,
one per dimensionality, each following the source statements in order:

* flip about the k-origin: `data[..., n/2:][1:,...,1:] = conj(S[flip])`
  where `S = data[..., :n/2]` (the write region, upper half of the last
  axis with all leading indices nonzero, is disjoint from the read region,
  so a simultaneous functional update is exact);
* recurse into the last-axis Nyquist plane `data[..., n/2]`;
* recurse into each axis's zero hyperplane `data[..,0,..]`, in axis order.

The recursion bottoms out at size-1 arrays, where `data.imag = 0`.
-/

/-- Flip-conjugate stage of the 1-D serial enforcer on an array of size
`2*m`: `data[m+j] = conj(data[m-j])` for `j = 1..m-1`, i.e. entries with
index value `> m` become `conj` of the mirrored entry. -/
def e1flip (m : ℕ) (a : ZMod (2 * m) → ℂ) : ZMod (2 * m) → ℂ :=
  fun i => if m < i.val then cconj (a (-i)) else a i

/-- Serial `enforce_hermitian`, 1-D, size `2*m`: flip stage, then the
scalar Nyquist entry `data[m]` and the scalar zero entry `data[0]` each
get `imag = 0` (the size-1 base case of the recursion). -/
def e1 (m : ℕ) (a : ZMod (2 * m) → ℂ) : ZMod (2 * m) → ℂ :=
  reAt 0 (reAt (m : ZMod (2 * m)) (e1flip m a))

theorem reAt_self {α : Type} [DecidableEq α] (i : α) (f : α → ℂ) :
    reAt i f i = setIm0 (f i) := by
  simp [reAt]

theorem reAt_ne {α : Type} [DecidableEq α] (i j : α) (f : α → ℂ) (h : j ≠ i) :
    reAt i f j = f j := by
  simp [reAt, Function.update_noteq h]

theorem cconj_setIm0 (z : ℂ) : cconj (setIm0 z) = setIm0 z := by
  simp [cconj, setIm0]

theorem setIm0_im (z : ℂ) : (setIm0 z).im = 0 := by
  simp [setIm0]

theorem cconj_cconj (z : ℂ) : cconj (cconj z) = z := by
  simp [cconj]

/-- The midpoint `m` of `ZMod (2*(m+1))` is nonzero. -/
theorem mid_ne_zero (m : ℕ) : ((m + 1 : ℕ) : ZMod (2 * (m + 1))) ≠ 0 := by
  intro h
  have hv := congrArg ZMod.val h
  rw [ZMod.val_cast_of_lt (by omega), ZMod.val_zero] at hv
  omega

/-- The midpoint of `ZMod (2*(m+1))` is its own negative. -/
theorem neg_mid (m : ℕ) :
    -((m + 1 : ℕ) : ZMod (2 * (m + 1))) = ((m + 1 : ℕ) : ZMod (2 * (m + 1))) := by
  have h2 : ((m + 1 : ℕ) : ZMod (2 * (m + 1))) + ((m + 1 : ℕ) : ZMod (2 * (m + 1))) = 0 := by
    have hcast : ((m + 1 : ℕ) : ZMod (2 * (m + 1))) + ((m + 1 : ℕ) : ZMod (2 * (m + 1)))
        = (((m + 1) + (m + 1) : ℕ) : ZMod (2 * (m + 1))) := by
      push_cast
      ring
    rw [hcast, show (m + 1) + (m + 1) = 2 * (m + 1) from by ring, ZMod.natCast_self]
  exact neg_eq_of_add_eq_zero_left h2

/-- Element equality in `ZMod (2*(m+1))` with the midpoint, via `val`. -/
theorem eq_mid_iff (m : ℕ) (k : ZMod (2 * (m + 1))) :
    k = ((m + 1 : ℕ) : ZMod (2 * (m + 1))) ↔ k.val = m + 1 := by
  constructor
  · intro h
    rw [h, ZMod.val_cast_of_lt (by omega)]
  · intro h
    have : NeZero (2 * (m + 1)) := ⟨by omega⟩
    apply ZMod.val_injective
    rw [h, ZMod.val_cast_of_lt (by omega)]

/-- Hermitian symmetry of the 1-D serial enforcer: for every index `k`
(wrap-around), the result `r` satisfies `r (-k) = conj (r k)`, and `r 0`
is real. -/
theorem e1_herm (m : ℕ) (a : ZMod (2 * (m + 1)) → ℂ) :
    (∀ k, e1 (m + 1) a (-k) = cconj (e1 (m + 1) a k)) ∧ (e1 (m + 1) a 0).im = 0 := by
  have : NeZero (2 * (m + 1)) := ⟨by omega⟩
  set M : ZMod (2 * (m + 1)) := ((m + 1 : ℕ) : ZMod (2 * (m + 1))) with hM
  have hM0 : M ≠ 0 := mid_ne_zero m
  have hMv : M.val = m + 1 := ZMod.val_cast_of_lt (by omega)
  have hnM : -M = M := neg_mid m
  have h0 : e1 (m + 1) a 0 = setIm0 (reAt M (e1flip (m + 1) a) 0) := by
    rw [e1, reAt_self]
  constructor
  · intro k
    by_cases hk0 : k = 0
    · subst hk0
      rw [neg_zero, h0, cconj_setIm0]
    by_cases hkM : k = M
    · subst hkM
      rw [hnM]
      have hMe : e1 (m + 1) a M = setIm0 (e1flip (m + 1) a M) := by
        rw [e1, reAt_ne 0 M _ hM0, reAt_self]
      rw [hMe, cconj_setIm0]
    · have hnk0 : -k ≠ 0 := by
        intro h
        exact hk0 (by rwa [neg_eq_zero] at h)
      have hnkM : -k ≠ M := by
        intro h
        apply hkM
        have := congrArg Neg.neg h
        rwa [neg_neg, hnM] at this
      have hke : e1 (m + 1) a k = e1flip (m + 1) a k := by
        rw [e1, reAt_ne 0 k _ hk0, reAt_ne M k _ hkM]
      have hnke : e1 (m + 1) a (-k) = e1flip (m + 1) a (-k) := by
        rw [e1, reAt_ne 0 (-k) _ hnk0, reAt_ne M (-k) _ hnkM]
      rw [hke, hnke]
      have hvne0 : k.val ≠ 0 := by
        intro h
        exact hk0 (by
          have := (ZMod.val_eq_zero k).mp h
          exact this)
      have hvneM : k.val ≠ m + 1 := by
        intro h
        exact hkM ((eq_mid_iff m k).mpr h)
      have hvlt : k.val < 2 * (m + 1) := ZMod.val_lt k
      have hnkv : (-k).val = 2 * (m + 1) - k.val := by
        rw [ZMod.neg_val, if_neg hk0]
      rcases lt_or_gt_of_ne hvneM with hlt | hgt
      · -- lower half: flip leaves k, writes -k
        have h1 : e1flip (m + 1) a k = a k := by
          rw [e1flip, if_neg (by omega)]
        have h2 : e1flip (m + 1) a (-k) = cconj (a (-(-k))) := by
          rw [e1flip, if_pos (by omega : m + 1 < (-k).val)]
        rw [h1, h2, neg_neg]
      · -- upper half: flip writes k, leaves -k
        have h1 : e1flip (m + 1) a k = cconj (a (-k)) := by
          rw [e1flip, if_pos (by omega)]
        have h2 : e1flip (m + 1) a (-k) = a (-k) := by
          rw [e1flip, if_neg (by omega : ¬ m + 1 < (-k).val)]
        rw [h1, h2, cconj_cconj]
  · rw [h0]
    exact setIm0_im _

/-- Flip-conjugate stage, 2-D, shape `(2*m0, 2*m1)`: entries with row
`i ≠ 0` and upper-half column `j.val > m1` become `conj` of the mirrored
entry (`data[:, n1/2:][1:, 1:] = S[::-1, ::-1].conj()` with
`S = data[:, :n1/2]`). -/
def e2flip (m0 m1 : ℕ) (a : ZMod (2 * m0) → ZMod (2 * m1) → ℂ) :
    ZMod (2 * m0) → ZMod (2 * m1) → ℂ :=
  fun i j => if i ≠ 0 ∧ m1 < j.val then cconj (a (-i) (-j)) else a i j

/-- After the 2-D flip, recurse (1-D) into the last-axis Nyquist column
`data[:, m1]`, writing the result back in place. -/
def e2stageC (m0 m1 : ℕ) (a : ZMod (2 * m0) → ZMod (2 * m1) → ℂ) :
    ZMod (2 * m0) → ZMod (2 * m1) → ℂ :=
  fun i j =>
    if j = ((m1 : ℕ) : ZMod (2 * m1)) then
      e1 m0 (fun r => e2flip m0 m1 a r ((m1 : ℕ) : ZMod (2 * m1))) i
    else e2flip m0 m1 a i j

/-- Then recurse (1-D) into the zero row `data[0, :]`. -/
def e2stageD (m0 m1 : ℕ) (a : ZMod (2 * m0) → ZMod (2 * m1) → ℂ) :
    ZMod (2 * m0) → ZMod (2 * m1) → ℂ :=
  fun i j => if i = 0 then e1 m1 (e2stageC m0 m1 a 0) j else e2stageC m0 m1 a i j

/-- Serial `enforce_hermitian`, 2-D, shape `(2*m0, 2*m1)`: flip stage,
Nyquist-column recursion, zero-row recursion, then zero-column recursion
`data[:, 0]` (axis order as in the source loop). -/
def e2 (m0 m1 : ℕ) (a : ZMod (2 * m0) → ZMod (2 * m1) → ℂ) :
    ZMod (2 * m0) → ZMod (2 * m1) → ℂ :=
  fun i j => if j = 0 then e1 m0 (fun r => e2stageD m0 m1 a r 0) i else e2stageD m0 m1 a i j

/-- Hermitian symmetry of the 2-D serial enforcer. -/
theorem e2_herm (m0 m1 : ℕ) (a : ZMod (2 * (m0 + 1)) → ZMod (2 * (m1 + 1)) → ℂ) :
    (∀ i j, e2 (m0 + 1) (m1 + 1) a (-i) (-j) = cconj (e2 (m0 + 1) (m1 + 1) a i j)) ∧
    (e2 (m0 + 1) (m1 + 1) a 0 0).im = 0 := by
  have : NeZero (2 * (m1 + 1)) := ⟨by omega⟩
  set M1 : ZMod (2 * (m1 + 1)) := ((m1 + 1 : ℕ) : ZMod (2 * (m1 + 1))) with hM1
  have hnM1 : -M1 = M1 := neg_mid m1
  constructor
  · intro i j
    by_cases hj0 : j = 0
    · subst hj0
      rw [neg_zero]
      show e2 _ _ a (-i) 0 = cconj (e2 _ _ a i 0)
      rw [e2, e2, if_pos rfl, if_pos rfl]
      exact (e1_herm m0 _).1 i
    · have hnj0 : -j ≠ 0 := fun h => hj0 (by rwa [neg_eq_zero] at h)
      rw [e2, e2, if_neg hnj0, if_neg hj0]
      by_cases hi0 : i = 0
      · subst hi0
        rw [neg_zero, e2stageD, e2stageD, if_pos rfl, if_pos rfl]
        exact (e1_herm m1 _).1 j
      · have hni0 : -i ≠ 0 := fun h => hi0 (by rwa [neg_eq_zero] at h)
        rw [e2stageD, e2stageD, if_neg hni0, if_neg hi0]
        by_cases hjM : j = M1
        · subst hjM
          rw [hnM1, e2stageC, e2stageC, if_pos rfl, if_pos rfl]
          exact (e1_herm m0 _).1 i
        · have hnjM : -j ≠ M1 := by
            intro h
            apply hjM
            have h2 := congrArg Neg.neg h
            rwa [neg_neg, hnM1] at h2
          rw [e2stageC, e2stageC, if_neg hnjM, if_neg hjM]
          have hvne0 : j.val ≠ 0 := fun h => hj0 ((ZMod.val_eq_zero j).mp h)
          have hvneM : j.val ≠ m1 + 1 := fun h => hjM ((eq_mid_iff m1 j).mpr h)
          have hvlt : j.val < 2 * (m1 + 1) := ZMod.val_lt j
          have hnjv : (-j).val = 2 * (m1 + 1) - j.val := by
            rw [ZMod.neg_val, if_neg hj0]
          rcases lt_or_gt_of_ne hvneM with hlt | hgt
          · have h1 : e2flip (m0 + 1) (m1 + 1) a i j = a i j := by
              rw [e2flip, if_neg (by push_neg; intro _; omega)]
            have h2 : e2flip (m0 + 1) (m1 + 1) a (-i) (-j)
                = cconj (a (-(-i)) (-(-j))) := by
              rw [e2flip, if_pos ⟨hni0, by omega⟩]
            rw [h1, h2, neg_neg, neg_neg]
          · have h1 : e2flip (m0 + 1) (m1 + 1) a i j = cconj (a (-i) (-j)) := by
              rw [e2flip, if_pos ⟨hi0, by omega⟩]
            have h2 : e2flip (m0 + 1) (m1 + 1) a (-i) (-j) = a (-i) (-j) := by
              rw [e2flip, if_neg (by push_neg; intro _; omega)]
            rw [h1, h2, cconj_cconj]
  · rw [e2, if_pos rfl]
    exact (e1_herm m0 _).2

/-- Flip-conjugate stage, 3-D, shape `(2*m0, 2*m1, 2*m2)`: entries with
`i ≠ 0`, `j ≠ 0` and upper-half last index `l.val > m2` become `conj` of
the mirrored entry. -/
def e3flip (m0 m1 m2 : ℕ)
    (a : ZMod (2 * m0) → ZMod (2 * m1) → ZMod (2 * m2) → ℂ) :
    ZMod (2 * m0) → ZMod (2 * m1) → ZMod (2 * m2) → ℂ :=
  fun i j l =>
    if i ≠ 0 ∧ j ≠ 0 ∧ m2 < l.val then cconj (a (-i) (-j) (-l)) else a i j l

/-- After the 3-D flip, recurse (2-D) into the last-axis Nyquist plane
`data[:, :, m2]`. -/
def e3stageC (m0 m1 m2 : ℕ)
    (a : ZMod (2 * m0) → ZMod (2 * m1) → ZMod (2 * m2) → ℂ) :
    ZMod (2 * m0) → ZMod (2 * m1) → ZMod (2 * m2) → ℂ :=
  fun i j l =>
    if l = ((m2 : ℕ) : ZMod (2 * m2)) then
      e2 m0 m1 (fun r s => e3flip m0 m1 m2 a r s ((m2 : ℕ) : ZMod (2 * m2))) i j
    else e3flip m0 m1 m2 a i j l

/-- Then recurse (2-D) into the zero hyperplane of axis 0, `data[0, :, :]`. -/
def e3stageD (m0 m1 m2 : ℕ)
    (a : ZMod (2 * m0) → ZMod (2 * m1) → ZMod (2 * m2) → ℂ) :
    ZMod (2 * m0) → ZMod (2 * m1) → ZMod (2 * m2) → ℂ :=
  fun i j l =>
    if i = 0 then e2 m1 m2 (e3stageC m0 m1 m2 a 0) j l else e3stageC m0 m1 m2 a i j l

/-- Then recurse (2-D) into the zero hyperplane of axis 1, `data[:, 0, :]`. -/
def e3stageE (m0 m1 m2 : ℕ)
    (a : ZMod (2 * m0) → ZMod (2 * m1) → ZMod (2 * m2) → ℂ) :
    ZMod (2 * m0) → ZMod (2 * m1) → ZMod (2 * m2) → ℂ :=
  fun i j l =>
    if j = 0 then e2 m0 m2 (fun r t => e3stageD m0 m1 m2 a r 0 t) i l
    else e3stageD m0 m1 m2 a i j l

/-- Serial `enforce_hermitian`, 3-D: flip stage, Nyquist-plane recursion,
then zero-hyperplane recursions for axes 0, 1, 2 in order (axis 2's zero
hyperplane is `data[:, :, 0]`). -/
def e3 (m0 m1 m2 : ℕ)
    (a : ZMod (2 * m0) → ZMod (2 * m1) → ZMod (2 * m2) → ℂ) :
    ZMod (2 * m0) → ZMod (2 * m1) → ZMod (2 * m2) → ℂ :=
  fun i j l =>
    if l = 0 then e2 m0 m1 (fun r s => e3stageE m0 m1 m2 a r s 0) i j
    else e3stageE m0 m1 m2 a i j l

/-- Hermitian symmetry of the 3-D serial enforcer. -/
theorem e3_herm (m0 m1 m2 : ℕ)
    (a : ZMod (2 * (m0 + 1)) → ZMod (2 * (m1 + 1)) → ZMod (2 * (m2 + 1)) → ℂ) :
    (∀ i j l, e3 (m0 + 1) (m1 + 1) (m2 + 1) a (-i) (-j) (-l)
      = cconj (e3 (m0 + 1) (m1 + 1) (m2 + 1) a i j l)) ∧
    (e3 (m0 + 1) (m1 + 1) (m2 + 1) a 0 0 0).im = 0 := by
  have : NeZero (2 * (m2 + 1)) := ⟨by omega⟩
  set M2 : ZMod (2 * (m2 + 1)) := ((m2 + 1 : ℕ) : ZMod (2 * (m2 + 1))) with hM2
  have hnM2 : -M2 = M2 := neg_mid m2
  constructor
  · intro i j l
    by_cases hl0 : l = 0
    · subst hl0
      rw [neg_zero]
      show e3 _ _ _ a (-i) (-j) 0 = cconj (e3 _ _ _ a i j 0)
      rw [e3, e3, if_pos rfl, if_pos rfl]
      exact (e2_herm m0 m1 _).1 i j
    · have hnl0 : -l ≠ 0 := fun h => hl0 (by rwa [neg_eq_zero] at h)
      rw [e3, e3, if_neg hnl0, if_neg hl0]
      by_cases hj0 : j = 0
      · subst hj0
        rw [neg_zero, e3stageE, e3stageE, if_pos rfl, if_pos rfl]
        exact (e2_herm m0 m2 _).1 i l
      · have hnj0 : -j ≠ 0 := fun h => hj0 (by rwa [neg_eq_zero] at h)
        rw [e3stageE, e3stageE, if_neg hnj0, if_neg hj0]
        by_cases hi0 : i = 0
        · subst hi0
          rw [neg_zero, e3stageD, e3stageD, if_pos rfl, if_pos rfl]
          exact (e2_herm m1 m2 _).1 j l
        · have hni0 : -i ≠ 0 := fun h => hi0 (by rwa [neg_eq_zero] at h)
          rw [e3stageD, e3stageD, if_neg hni0, if_neg hi0]
          by_cases hlM : l = M2
          · subst hlM
            rw [hnM2, e3stageC, e3stageC, if_pos rfl, if_pos rfl]
            exact (e2_herm m0 m1 _).1 i j
          · have hnlM : -l ≠ M2 := by
              intro h
              apply hlM
              have h2 := congrArg Neg.neg h
              rwa [neg_neg, hnM2] at h2
            rw [e3stageC, e3stageC, if_neg hnlM, if_neg hlM]
            have hvne0 : l.val ≠ 0 := fun h => hl0 ((ZMod.val_eq_zero l).mp h)
            have hvneM : l.val ≠ m2 + 1 := fun h => hlM ((eq_mid_iff m2 l).mpr h)
            have hvlt : l.val < 2 * (m2 + 1) := ZMod.val_lt l
            have hnlv : (-l).val = 2 * (m2 + 1) - l.val := by
              rw [ZMod.neg_val, if_neg hl0]
            rcases lt_or_gt_of_ne hvneM with hlt | hgt
            · have h1 : e3flip (m0 + 1) (m1 + 1) (m2 + 1) a i j l = a i j l := by
                rw [e3flip, if_neg (by push_neg; intro _ _; omega)]
              have h2 : e3flip (m0 + 1) (m1 + 1) (m2 + 1) a (-i) (-j) (-l)
                  = cconj (a (-(-i)) (-(-j)) (-(-l))) := by
                rw [e3flip, if_pos ⟨hni0, hnj0, by omega⟩]
              rw [h1, h2, neg_neg, neg_neg, neg_neg]
            · have h1 : e3flip (m0 + 1) (m1 + 1) (m2 + 1) a i j l
                  = cconj (a (-i) (-j) (-l)) := by
                rw [e3flip, if_pos ⟨hi0, hj0, by omega⟩]
              have h2 : e3flip (m0 + 1) (m1 + 1) (m2 + 1) a (-i) (-j) (-l)
                  = a (-i) (-j) (-l) := by
                rw [e3flip, if_neg (by push_neg; intro _ _; omega)]
              rw [h1, h2, cconj_cconj]
  · rw [e3, if_pos rfl]
    exact (e2_herm m0 m1 _).2

/-- C1: for every complex spectral array with 1 to 3 axes and even
(positive) sample counts `2*(m+1)`, after the serial `enforce_hermitian`
the array satisfies `coeff(-k) = conj(coeff(k))` for every wavenumber
index `k` (indices taken modulo the per-axis size, which is what the
`ZMod` negation computes), and the zero-wavevector coefficient is real. -/
theorem C1_serial_hermitian_enforcer :
    (∀ (m : ℕ) (a : ZMod (2 * (m + 1)) → ℂ),
      (∀ k, e1 (m + 1) a (-k) = cconj (e1 (m + 1) a k)) ∧
      (e1 (m + 1) a 0).im = 0) ∧
    (∀ (m0 m1 : ℕ) (a : ZMod (2 * (m0 + 1)) → ZMod (2 * (m1 + 1)) → ℂ),
      (∀ i j, e2 (m0 + 1) (m1 + 1) a (-i) (-j)
        = cconj (e2 (m0 + 1) (m1 + 1) a i j)) ∧
      (e2 (m0 + 1) (m1 + 1) a 0 0).im = 0) ∧
    (∀ (m0 m1 m2 : ℕ)
      (a : ZMod (2 * (m0 + 1)) → ZMod (2 * (m1 + 1)) → ZMod (2 * (m2 + 1)) → ℂ),
      (∀ i j l, e3 (m0 + 1) (m1 + 1) (m2 + 1) a (-i) (-j) (-l)
        = cconj (e3 (m0 + 1) (m1 + 1) (m2 + 1) a i j l)) ∧
      (e3 (m0 + 1) (m1 + 1) (m2 + 1) a 0 0 0).im = 0) :=
  ⟨e1_herm, e2_herm, e3_herm⟩

/-! ### FourierRepresentation (fourier_data.py, lines 36-207)

The class is embedded for 2-D fields (`Field2`, used by most claims) and
1-D fields (`Field1`, used by the 1-D scenario, where `dealias_23` hits a
missing `'y'` wavenumber axis).  numpy buffers are `Fin`-indexed
functions; the buffer-identity of `self.data` (which numpy operation
rebinds the attribute vs. writes in place) is tracked by an allocation
counter. -/

/-- numpy `fftfreq(n)[i]`: `i/n` for `i < ceil(n/2)`, else `(i-n)/n`. -/
def fftfreq (n : ℕ) (i : Fin n) : ℝ :=
  if (i : ℕ) < (n + 1) / 2 then (i : ℝ) / n else ((i : ℝ) - n) / n

/-- Nyquist wavenumber of one axis: `kny = pi * shape / length`. -/
def knyq (n : ℕ) (len : ℝ) : ℝ := Real.pi * n / len

/-- Per-axis wavenumber array: `ki = fftfreq(S) * 2 * kny[i]`. -/
def kwave (n : ℕ) (len : ℝ) (i : Fin n) : ℝ := fftfreq n i * (2 * knyq n len)

/-- `numpy.finfo(complex128).eps`, exactly `2⁻⁵²`. -/
def epsF64 : ℝ := 2 ^ (-52 : ℤ)

/-- Forward DFT kernel `exp(-2*pi*I*k*j/n)` (the convention of numpy
`fft`/`fftn` and of an FFTW forward plan, both unnormalized). -/
def dker (n k j : ℕ) : ℂ := Complex.exp (-(2 * (Real.pi : ℂ) * Complex.I) * k * j / n)

/-- Inverse DFT kernel `exp(2*pi*I*k*j/n)`. -/
def iker (n k j : ℕ) : ℂ := Complex.exp ((2 * (Real.pi : ℂ) * Complex.I) * k * j / n)

/-- Unnormalized forward DFT along axis 0 of a 2-D array. -/
def fftAx0 {n0 n1 : ℕ} (x : Fin n0 → Fin n1 → ℂ) : Fin n0 → Fin n1 → ℂ :=
  fun k0 j1 => ∑ j0, x j0 j1 * dker n0 k0 j0

/-- Unnormalized forward DFT along axis 1 of a 2-D array. -/
def fftAx1 {n0 n1 : ℕ} (x : Fin n0 → Fin n1 → ℂ) : Fin n0 → Fin n1 → ℂ :=
  fun j0 k1 => ∑ j1, x j0 j1 * dker n1 k1 j1

/-- numpy `ifft(data, axis=0)`: inverse DFT along axis 0, `1/n0`-normalized. -/
def ifftAx0 {n0 n1 : ℕ} (x : Fin n0 → Fin n1 → ℂ) : Fin n0 → Fin n1 → ℂ :=
  fun k0 j1 => (∑ j0, x j0 j1 * iker n0 k0 j0) / n0

/-- numpy `ifft(data, axis=1)`. -/
def ifftAx1 {n0 n1 : ℕ} (x : Fin n0 → Fin n1 → ℂ) : Fin n0 → Fin n1 → ℂ :=
  fun j0 k1 => (∑ j1, x j0 j1 * iker n1 k1 j1) / n1

/-- numpy `fftn` on a 2-D array (sequential per-axis forward DFTs,
unnormalized). -/
def fftn2 {n0 n1 : ℕ} (x : Fin n0 → Fin n1 → ℂ) : Fin n0 → Fin n1 → ℂ :=
  fftAx1 (fftAx0 x)

/-- numpy `ifftn` on a 2-D array (normalized inverse). -/
def ifftn2 {n0 n1 : ℕ} (x : Fin n0 → Fin n1 → ℂ) : Fin n0 → Fin n1 → ℂ :=
  ifftAx1 (ifftAx0 x)

/-- Unnormalized inverse DFT along axis 0 (FFTW backward convention). -/
def bfftAx0 {n0 n1 : ℕ} (x : Fin n0 → Fin n1 → ℂ) : Fin n0 → Fin n1 → ℂ :=
  fun k0 j1 => ∑ j0, x j0 j1 * iker n0 k0 j0

/-- Unnormalized inverse DFT along axis 1. -/
def bfftAx1 {n0 n1 : ℕ} (x : Fin n0 → Fin n1 → ℂ) : Fin n0 → Fin n1 → ℂ :=
  fun j0 k1 => ∑ j1, x j0 j1 * iker n1 k1 j1

/-- An FFTW backward plan: unnormalized inverse DFT over both axes. -/
def bfftn2 {n0 n1 : ℕ} (x : Fin n0 → Fin n1 → ℂ) : Fin n0 → Fin n1 → ℂ :=
  bfftAx1 (bfftAx0 x)

/-- Transform strategy installed by `set_fft` (the source supports exactly
these two tokens; any other leaves the transform attribute unset, so no
transform can run at all, and no claim exercises that). -/
inductive FFTMethod
  | fftw
  | numpy
deriving DecidableEq

/-- State of a 2-D `FourierRepresentation`: buffer content `data`, the
`_curr_space` string tag, the transform strategy, whether
`set_dealiasing` installed `dealias_23`, the per-axis lengths, and the
identity of the backing buffer (`bufId`; a fresh numpy allocation takes
the current allocator counter `nextFresh`). -/
structure Field2 (n0 n1 : ℕ) where
  data : Fin n0 → Fin n1 → ℂ
  curr : String
  method : FFTMethod
  dealias : Bool
  len0 : ℝ
  len1 : ℝ
  bufId : ℕ
  nextFresh : ℕ

/-- `FourierRepresentation.__init__`: zero buffer, `_curr_space='kspace'`,
`set_fft(method)`, `set_dealiasing(dealiasing)` (the callback is installed
iff the token is `"2/3"`). -/
def mkField2 (n0 n1 : ℕ) (len0 len1 : ℝ) (method : FFTMethod) (dealiasing : String) :
    Field2 n0 n1 where
  data := fun _ _ => 0
  curr := "kspace"
  method := method
  dealias := dealiasing == "2/3"
  len0 := len0
  len1 := len1
  bufId := 0
  nextFresh := 1

/-- `fwd_fftw`: execute the forward plan in place (unnormalized DFT into
the bound buffer), then `self.data /= self.data.size`. -/
def fwdFftw {n0 n1 : ℕ} (s : Field2 n0 n1) : Field2 n0 n1 :=
  {s with data := fun k0 k1 => fftn2 s.data k0 k1 / ((n0 * n1 : ℕ) : ℂ)}

/-- `rev_fftw`: execute the backward plan in place (unnormalized inverse
DFT), then `self.data.imag = 0`. -/
def revFftw {n0 n1 : ℕ} (s : Field2 n0 n1) : Field2 n0 n1 :=
  {s with data := fun j0 j1 => setIm0 (bfftn2 s.data j0 j1)}

/-- `fwd_np`: `self.data = fpack.fftn(self.data)` — numpy allocates a
fresh result array and the attribute is rebound to it (no copy back into
the old buffer). -/
def fwdNp {n0 n1 : ℕ} (s : Field2 n0 n1) : Field2 n0 n1 :=
  {s with data := fftn2 s.data, bufId := s.nextFresh, nextFresh := s.nextFresh + 1}

/-- `rev_np`: `self.data = fpack.ifftn(self.data); self.data.imag = 0` —
rebinds to a fresh array, then zeroes its imaginary part in place. -/
def revNp {n0 n1 : ℕ} (s : Field2 n0 n1) : Field2 n0 n1 :=
  {s with data := fun j0 j1 => setIm0 (ifftn2 s.data j0 j1),
          bufId := s.nextFresh, nextFresh := s.nextFresh + 1}

/-- `self.fft()` as installed by `set_fft`. -/
def fftStep {n0 n1 : ℕ} (s : Field2 n0 n1) : Field2 n0 n1 :=
  match s.method with
  | .fftw => fwdFftw s
  | .numpy => fwdNp s

/-- `self.ifft()` as installed by `set_fft`. -/
def ifftStep {n0 n1 : ℕ} (s : Field2 n0 n1) : Field2 n0 n1 :=
  match s.method with
  | .fftw => revFftw s
  | .numpy => revNp s

/-- The zeroing mask of `dealias_23` (2-D):
`(|k['x']| > 2/3*kny[-1]) | (|k['y']| > 2/3*kny[-2])`. -/
def dmask23 (n0 n1 : ℕ) (len0 len1 : ℝ) (i : Fin n0) (j : Fin n1) : Prop :=
  2 / 3 * knyq n1 len1 < |kwave n1 len1 j| ∨ 2 / 3 * knyq n0 len0 < |kwave n0 len0 i|

open Classical in
/-- The write stage of `dealias_23`: `self.data[dmask] = 0`. -/
def maskApply {n0 n1 : ℕ} (s : Field2 n0 n1) : Field2 n0 n1 :=
  {s with data := fun i j => if dmask23 n0 n1 s.len0 s.len1 i j then 0 else s.data i j}

/-- The write stage of `zero_nyquist`: zero row `shape[0]/2` and column
`shape[1]/2`. -/
def zeroNy {n0 n1 : ℕ} (s : Field2 n0 n1) : Field2 n0 n1 :=
  {s with data := fun i j => if (i : ℕ) = n0 / 2 ∨ (j : ℕ) = n1 / 2 then 0 else s.data i j}

open Classical in
/-- The write stage of `zero_under_eps`: zero entries with `|coeff| < eps`. -/
def zeroEps {n0 n1 : ℕ} (s : Field2 n0 n1) : Field2 n0 n1 :=
  {s with data := fun i j => if Complex.abs (s.data i j) < epsF64 then 0 else s.data i j}

/-- `forward()`: `self.fft(); self._curr_space = 'kspace'; if self.dealias:
self.dealias(); self.zero_nyquist(); self.zero_under_eps()`.  When the
inner `dealias_23` / `zero_nyquist` / `zero_under_eps` run here, the tag
is already `'kspace'`, so their dummy `self['kspace']` calls pass and only
the write stages remain. -/
def forwardF {n0 n1 : ℕ} (s : Field2 n0 n1) : Field2 n0 n1 :=
  let s1 : Field2 n0 n1 := {fftStep s with curr := "kspace"}
  let s2 := if s.dealias then maskApply s1 else s1
  zeroEps (zeroNy s2)

/-- `dealias_23()` as called outside `forward` (from `__setitem__` and
`backward`): compute the mask, run the dummy `self['kspace']` — which is a
pass when the tag is `'kspace'` and runs `forward()` otherwise (also for
invalid tags) — then zero the masked entries. -/
def dealias23 {n0 n1 : ℕ} (s : Field2 n0 n1) : Field2 n0 n1 :=
  maskApply (if s.curr = "kspace" then s else forwardF s)

/-- `backward()`: dealias-if-installed, `self.ifft()`,
`self._curr_space = 'xspace'`. -/
def backwardF {n0 n1 : ℕ} (s : Field2 n0 n1) : Field2 n0 n1 :=
  let s1 := if s.dealias then dealias23 s else s
  {ifftStep s1 with curr := "xspace"}

/-- `__getitem__(space)`: pass when the tag matches, transform for the two
valid tokens, otherwise `KeyError`; the caller then reads `self.data` of
the resulting state. -/
def getitemF {n0 n1 : ℕ} (space : String) (s : Field2 n0 n1) :
    Except String (Field2 n0 n1) :=
  if space = s.curr then .ok s
  else if space = "xspace" then .ok (backwardF s)
  else if space = "kspace" then .ok (forwardF s)
  else .error ("space must be either xspace or kspace")

/-- `__setitem__(space, data)` for data of the field's own shape (the
source's undocumented quarter-offset pad branch runs only for strictly
smaller input and is exercised by no claim): copy the content into the
existing buffer, set `_curr_space = space` with no validation of the
token, then run the dealias callback when installed. -/
def setitemF {n0 n1 : ℕ} (space : String) (nd : Fin n0 → Fin n1 → ℂ)
    (s : Field2 n0 n1) : Field2 n0 n1 :=
  let s1 : Field2 n0 n1 := {s with data := nd, curr := space}
  if s1.dealias then dealias23 s1 else s1

/-- The wavenumber dictionary `self.k` of a 2-D field: `'y'` is axis 0,
`'x'` is axis 1, each broadcast over the grid; other labels are absent. -/
def kdict2 (n0 n1 : ℕ) (len0 len1 : ℝ) (dim : String) :
    Option (Fin n0 → Fin n1 → ℂ) :=
  if dim = "y" then some (fun i _ => (kwave n0 len0 i : ℂ))
  else if dim = "x" then some (fun _ j => (kwave n1 len1 j : ℂ))
  else none

/-- `deriv(dim)`: a forward transform is forced (mutating the field) when
the tag is `'xspace'`; then `der = self.data * 1j * self.k[dim]` is
returned; a label that is no axis of the field raises `KeyError`.  The
result pairs the field state after the call with the returned array. -/
def derivF {n0 n1 : ℕ} (dim : String) (s : Field2 n0 n1) :
    Except String (Field2 n0 n1 × (Fin n0 → Fin n1 → ℂ)) :=
  let s1 := if s.curr = "xspace" then forwardF s else s
  match kdict2 n0 n1 s.len0 s.len1 dim with
  | none => .error ("KeyError")
  | some kv => .ok (s1, fun i j => s1.data i j * (Complex.I * kv i j))

/-! ### State-projection helper lemmas for `Field2` operations -/

theorem maskApply_curr {n0 n1 : ℕ} (s : Field2 n0 n1) : (maskApply s).curr = s.curr := rfl

theorem zeroNy_curr {n0 n1 : ℕ} (s : Field2 n0 n1) : (zeroNy s).curr = s.curr := rfl

theorem zeroEps_curr {n0 n1 : ℕ} (s : Field2 n0 n1) : (zeroEps s).curr = s.curr := rfl

theorem forwardF_curr {n0 n1 : ℕ} (s : Field2 n0 n1) : (forwardF s).curr = "kspace" := by
  unfold forwardF
  cases hd : s.dealias <;> simp [hd, zeroEps_curr, zeroNy_curr, maskApply_curr]

theorem dealias23_curr {n0 n1 : ℕ} (s : Field2 n0 n1) :
    (dealias23 s).curr = if s.curr = "kspace" then s.curr else "kspace" := by
  unfold dealias23
  by_cases hc : s.curr = "kspace" <;> simp [hc, maskApply_curr, forwardF_curr]

theorem backwardF_curr {n0 n1 : ℕ} (s : Field2 n0 n1) : (backwardF s).curr = "xspace" := rfl

theorem fftStep_method {n0 n1 : ℕ} (s : Field2 n0 n1) : (fftStep s).method = s.method := by
  cases hm : s.method <;> simp [fftStep, hm, fwdFftw, fwdNp]

theorem fftStep_len0 {n0 n1 : ℕ} (s : Field2 n0 n1) : (fftStep s).len0 = s.len0 := by
  cases hm : s.method <;> simp [fftStep, hm, fwdFftw, fwdNp]

theorem fftStep_len1 {n0 n1 : ℕ} (s : Field2 n0 n1) : (fftStep s).len1 = s.len1 := by
  cases hm : s.method <;> simp [fftStep, hm, fwdFftw, fwdNp]

theorem fftStep_bufId_fftw {n0 n1 : ℕ} (s : Field2 n0 n1) (h : s.method = FFTMethod.fftw) :
    (fftStep s).bufId = s.bufId := by
  simp [fftStep, h, fwdFftw]

theorem forwardF_bufId_fftw {n0 n1 : ℕ} (s : Field2 n0 n1) (h : s.method = FFTMethod.fftw) :
    (forwardF s).bufId = s.bufId := by
  unfold forwardF
  cases hd : s.dealias <;>
    simp [hd, zeroEps, zeroNy, maskApply, fftStep_bufId_fftw s h]

theorem dealias23_bufId_fftw {n0 n1 : ℕ} (s : Field2 n0 n1) (h : s.method = FFTMethod.fftw) :
    (dealias23 s).bufId = s.bufId := by
  unfold dealias23
  by_cases hc : s.curr = "kspace" <;> simp [hc, maskApply, forwardF_bufId_fftw s h]

theorem forwardF_method {n0 n1 : ℕ} (s : Field2 n0 n1) : (forwardF s).method = s.method := by
  unfold forwardF
  cases hd : s.dealias <;> simp [hd, zeroEps, zeroNy, maskApply, fftStep_method]

theorem dealias23_method {n0 n1 : ℕ} (s : Field2 n0 n1) : (dealias23 s).method = s.method := by
  unfold dealias23
  by_cases hc : s.curr = "kspace" <;> simp [hc, maskApply, forwardF_method]

theorem backwardF_bufId_fftw {n0 n1 : ℕ} (s : Field2 n0 n1) (h : s.method = FFTMethod.fftw) :
    (backwardF s).bufId = s.bufId := by
  unfold backwardF
  cases hd : s.dealias
  · simp [hd, ifftStep, h, revFftw]
  · have hm : (dealias23 s).method = FFTMethod.fftw := by rw [dealias23_method, h]
    simp [hd, ifftStep, hm, revFftw, dealias23_bufId_fftw s h]

theorem setitemF_bufId_fftw {n0 n1 : ℕ} (space : String) (nd : Fin n0 → Fin n1 → ℂ)
    (s : Field2 n0 n1) (h : s.method = FFTMethod.fftw) :
    (setitemF space nd s).bufId = s.bufId := by
  unfold setitemF
  have h1 : (({s with data := nd, curr := space} : Field2 n0 n1)).method = FFTMethod.fftw := h
  have h2 := dealias23_bufId_fftw ({s with data := nd, curr := space} : Field2 n0 n1) h1
  cases hd : s.dealias
  · simp [hd]
  · simp only [hd] at h2 ⊢
    simpa using h2

/-- How `__setitem__` leaves the `_curr_space` tag: the requested token,
except that an installed dealias callback on a non-kspace token forces a
forward transform (via its dummy `self['kspace']`), ending at `'kspace'`. -/
theorem setitemF_curr {n0 n1 : ℕ} (space : String) (nd : Fin n0 → Fin n1 → ℂ)
    (s : Field2 n0 n1) :
    (setitemF space nd s).curr
      = if s.dealias = true then (if space = "kspace" then space else "kspace")
        else space := by
  unfold setitemF
  cases hd : s.dealias
  · simp [hd]
  · simp only [hd, if_true]
    rw [dealias23_curr]

/-- C10: immediately after construction a `FourierRepresentation` has
`current_space = 'kspace'` and an all-zero buffer; `get('kspace')` issued
right after construction returns the state unchanged (hence the zero
buffer, with no transform performed), while the first `get('xspace')`
performs the backward transform, leaving the tag at `'xspace'`. -/
theorem C10_fresh_field (n0 n1 : ℕ) (len0 len1 : ℝ) (method : FFTMethod)
    (dealiasing : String) :
    (mkField2 n0 n1 len0 len1 method dealiasing).curr = "kspace" ∧
    (mkField2 n0 n1 len0 len1 method dealiasing).data = (fun _ _ => 0) ∧
    getitemF "kspace" (mkField2 n0 n1 len0 len1 method dealiasing)
      = Except.ok (mkField2 n0 n1 len0 len1 method dealiasing) ∧
    getitemF "xspace" (mkField2 n0 n1 len0 len1 method dealiasing)
      = Except.ok (backwardF (mkField2 n0 n1 len0 len1 method dealiasing)) ∧
    (backwardF (mkField2 n0 n1 len0 len1 method dealiasing)).curr = "xspace" := by
  refine ⟨rfl, rfl, ?_, ?_, rfl⟩
  · simp [getitemF, mkField2]
  · simp [getitemF, mkField2]

/-- C3 (amended): `get` with a token that is neither of the two valid ones
(nor the stored tag) fails with the KeyError; `set` performs no validation
of the token at all: it always completes, storing the token as
`current_space` when no dealias callback is installed (with the callback,
its dummy get forces a forward transform and the tag ends at `'kspace'`). -/
theorem C3_space_validation {n0 n1 : ℕ} (s : Field2 n0 n1) (space : String)
    (h1 : space ≠ s.curr) (h2 : space ≠ "xspace") (h3 : space ≠ "kspace") :
    getitemF space s = Except.error ("space must be either xspace or kspace") ∧
    (∀ nd, s.dealias = false → setitemF space nd s = {s with data := nd, curr := space}) ∧
    (∀ nd, s.dealias = true → (setitemF space nd s).curr = "kspace") := by
  refine ⟨?_, ?_, ?_⟩
  · rw [getitemF, if_neg h1, if_neg h2, if_neg h3]
  · intro nd hd
    simp [setitemF, hd]
  · intro nd hd
    simp [setitemF_curr, hd, h3]

/-- Witness for C3 at a concrete field and the token "zspace". -/
theorem C3_space_validation_witness :
    ("zspace" ≠ (mkField2 1 1 (1 : ℝ) 1 FFTMethod.fftw "none").curr) ∧
    ("zspace" ≠ "xspace") ∧ ("zspace" ≠ "kspace") ∧
    getitemF "zspace" (mkField2 1 1 (1 : ℝ) 1 FFTMethod.fftw "none")
      = Except.error ("space must be either xspace or kspace") :=
  ⟨by decide, by decide, by decide,
    (C3_space_validation (mkField2 1 1 (1 : ℝ) 1 FFTMethod.fftw "none") "zspace"
      (by decide) (by decide) (by decide)).1⟩

/-- C3 counterexample: `set` with the invalid token "zspace" completes
normally (no error) and even stores the invalid token as the tag. -/
theorem C3_counterexample :
    (setitemF "zspace" (fun _ _ => 0) (mkField2 1 1 (1 : ℝ) 1 FFTMethod.fftw "none")).curr
      = "zspace" := by
  simp [setitemF_curr, mkField2]

/-- C4 (amended): with no dealias callback, `set(space, data)` copies and
leaves the tag at the requested token; with the 2/3 callback installed,
`set('kspace', ·)` copies, tags `'kspace'`, and applies the mask
immediately after the copy, but `set` with any other token ends with the
tag at `'kspace'` because the callback's dummy get forces a forward
transform. -/
theorem C4_set_space_tag {n0 n1 : ℕ} (space : String) (nd : Fin n0 → Fin n1 → ℂ)
    (s : Field2 n0 n1) :
    (s.dealias = false → setitemF space nd s = {s with data := nd, curr := space}) ∧
    (s.dealias = true → setitemF "kspace" nd s
        = maskApply {s with data := nd, curr := "kspace"}) ∧
    (s.dealias = true → space ≠ "kspace" → (setitemF space nd s).curr = "kspace") := by
  refine ⟨?_, ?_, ?_⟩
  · intro hd
    simp [setitemF, hd]
  · intro hd
    have hk : dealias23 ({s with data := nd, curr := "kspace", dealias := true} : Field2 n0 n1)
        = maskApply {s with data := nd, curr := "kspace", dealias := true} := by
      unfold dealias23
      rw [if_pos rfl]
    simp [setitemF, hd, hk]
  · intro hd hne
    simp [setitemF_curr, hd, hne]

/-- Witness for C4: a concrete dealiased field. -/
theorem C4_set_space_tag_witness :
    ((mkField2 2 2 (1 : ℝ) 1 FFTMethod.fftw "2/3").dealias = true) ∧
    ("xspace" ≠ "kspace") ∧
    (setitemF "xspace" (fun _ _ => 0) (mkField2 2 2 (1 : ℝ) 1 FFTMethod.fftw "2/3")).curr
      = "kspace" :=
  ⟨rfl, by decide,
    (C4_set_space_tag "xspace" (fun _ _ => 0)
      (mkField2 2 2 (1 : ℝ) 1 FFTMethod.fftw "2/3")).2.2 rfl (by decide)⟩

/-- C4 counterexample: with the default 2/3 dealias policy installed,
`set('xspace', data)` leaves the tag at `'kspace'`, not at the requested
`'xspace'`. -/
theorem C4_counterexample :
    (setitemF "xspace" (fun _ _ => 0) (mkField2 2 2 (1 : ℝ) 1 FFTMethod.fftw "2/3")).curr
      ≠ "xspace" := by
  simp [setitemF_curr, mkField2]

/-- C7 (amended): for a valid axis label, `deriv` returns
`data * (1j * k[dim])`; from `'kspace'` the stored state is untouched, but
from `'xspace'` the forced forward transform mutates the field: its data
become the (cleaned) spectral coefficients and its tag becomes
`'kspace'`. -/
theorem C7_deriv {n0 n1 : ℕ} (dim : String) (s : Field2 n0 n1)
    (kv : Fin n0 → Fin n1 → ℂ) (hkv : kdict2 n0 n1 s.len0 s.len1 dim = some kv) :
    (s.curr ≠ "xspace" → derivF dim s
        = Except.ok (s, fun i j => s.data i j * (Complex.I * kv i j))) ∧
    (s.curr = "xspace" →
      derivF dim s = Except.ok (forwardF s,
        fun i j => (forwardF s).data i j * (Complex.I * kv i j)) ∧
      (forwardF s).curr = "kspace") := by
  constructor
  · intro hc
    unfold derivF
    rw [if_neg hc, hkv]
  · intro hc
    refine ⟨?_, forwardF_curr s⟩
    unfold derivF
    rw [if_pos hc, hkv]

/-- Witness for C7 at a concrete field already in kspace. -/
theorem C7_deriv_witness :
    kdict2 2 2 (mkField2 2 2 (1 : ℝ) 1 FFTMethod.fftw "none").len0
        (mkField2 2 2 (1 : ℝ) 1 FFTMethod.fftw "none").len1 "x"
      = some (fun _ j => ((kwave 2 1 j : ℝ) : ℂ)) ∧
    ((mkField2 2 2 (1 : ℝ) 1 FFTMethod.fftw "none").curr ≠ "xspace") ∧
    derivF "x" (mkField2 2 2 (1 : ℝ) 1 FFTMethod.fftw "none")
      = Except.ok (mkField2 2 2 (1 : ℝ) 1 FFTMethod.fftw "none",
          fun i j => (mkField2 2 2 (1 : ℝ) 1 FFTMethod.fftw "none").data i j
            * (Complex.I * ((kwave 2 1 j : ℝ) : ℂ))) :=
  ⟨rfl, by decide,
    (C7_deriv "x" (mkField2 2 2 (1 : ℝ) 1 FFTMethod.fftw "none")
      (fun _ j => ((kwave 2 1 j : ℝ) : ℂ)) rfl).1 (by decide)⟩

/-- C7 counterexample: calling `deriv` on a field currently in physical
space returns a state whose tag is `'kspace'` — the call mutated the
field, contradicting the no-mutation part of the claim. -/
theorem C7_counterexample :
    (({mkField2 2 2 (1 : ℝ) 1 FFTMethod.fftw "none" with curr := "xspace"} : Field2 2 2).curr
        = "xspace") ∧
    derivF "x" ({mkField2 2 2 (1 : ℝ) 1 FFTMethod.fftw "none" with curr := "xspace"})
      = Except.ok
          (forwardF ({mkField2 2 2 (1 : ℝ) 1 FFTMethod.fftw "none" with curr := "xspace"}),
           fun i j =>
             (forwardF ({mkField2 2 2 (1 : ℝ) 1 FFTMethod.fftw "none" with curr := "xspace"})).data i j
               * (Complex.I * ((kwave 2 1 j : ℝ) : ℂ))) ∧
    (forwardF ({mkField2 2 2 (1 : ℝ) 1 FFTMethod.fftw "none" with curr := "xspace"} : Field2 2 2)).curr
      = "kspace" := by
  refine ⟨rfl, ?_, forwardF_curr _⟩
  unfold derivF
  rw [if_pos rfl]
  rfl

/-- C2 (amended): `set` always copies into the existing buffer, and with
the plan-bound fftw strategy `forward`/`backward` transform in place, so
the buffer identity survives any sequence of set/forward/backward; the
generic numpy strategy however does not copy its result back:
`fwd_np`/`rev_np` rebind `self.data` to a freshly allocated array,
changing the buffer identity. -/
theorem C2_storage_identity {n0 n1 : ℕ} (space : String) (nd : Fin n0 → Fin n1 → ℂ)
    (s : Field2 n0 n1) (h : s.method = FFTMethod.fftw) :
    (setitemF space nd s).bufId = s.bufId ∧
    (forwardF s).bufId = s.bufId ∧
    (backwardF s).bufId = s.bufId ∧
    (∀ t : Field2 n0 n1, t.bufId < t.nextFresh →
      (fwdNp t).bufId ≠ t.bufId ∧ (revNp t).bufId ≠ t.bufId) := by
  refine ⟨setitemF_bufId_fftw space nd s h, forwardF_bufId_fftw s h,
    backwardF_bufId_fftw s h, fun t ht => ⟨?_, ?_⟩⟩
  · simp only [fwdNp]
    omega
  · simp only [revNp]
    omega

/-- Witness for C2: a concrete fftw field keeps its buffer across `set`;
a concrete numpy field changes buffer identity on `fwd_np`. -/
theorem C2_storage_identity_witness :
    ((mkField2 2 2 (1 : ℝ) 1 FFTMethod.fftw "none").method = FFTMethod.fftw) ∧
    (setitemF "kspace" (fun _ _ => 0) (mkField2 2 2 (1 : ℝ) 1 FFTMethod.fftw "none")).bufId
      = (mkField2 2 2 (1 : ℝ) 1 FFTMethod.fftw "none").bufId ∧
    ((mkField2 2 2 (1 : ℝ) 1 FFTMethod.numpy "none").bufId
      < (mkField2 2 2 (1 : ℝ) 1 FFTMethod.numpy "none").nextFresh) ∧
    (fwdNp (mkField2 2 2 (1 : ℝ) 1 FFTMethod.numpy "none")).bufId
      ≠ (mkField2 2 2 (1 : ℝ) 1 FFTMethod.numpy "none").bufId :=
  ⟨rfl,
   (C2_storage_identity "kspace" (fun _ _ => 0)
      (mkField2 2 2 (1 : ℝ) 1 FFTMethod.fftw "none") rfl).1,
   by decide,
   ((C2_storage_identity "kspace" (fun _ _ => 0)
      (mkField2 2 2 (1 : ℝ) 1 FFTMethod.fftw "none") rfl).2.2.2
      (mkField2 2 2 (1 : ℝ) 1 FFTMethod.numpy "none") (by decide)).1⟩

/-- C2 counterexample: with the numpy strategy, one `forward()` already
rebinds the field's data buffer to a new allocation. -/
theorem C2_counterexample :
    (forwardF (mkField2 2 2 (1 : ℝ) 1 FFTMethod.numpy "none")).bufId
      ≠ (mkField2 2 2 (1 : ℝ) 1 FFTMethod.numpy "none").bufId := by
  decide

/-- C6 (amended): on the same input, `fwd_fftw` produces the DFT divided
by the total element count while `fwd_np` produces the raw unnormalized
DFT, so the two strategies differ by exactly that factor (and are not
numerically equivalent). -/
theorem C6_strategy_normalization (a b : ℕ) (s : Field2 (a + 1) (b + 1))
    (k0 : Fin (a + 1)) (k1 : Fin (b + 1)) :
    (fwdNp s).data k0 k1
      = (((a + 1) * (b + 1) : ℕ) : ℂ) * (fwdFftw s).data k0 k1 := by
  have hne : (((a + 1) * (b + 1) : ℕ) : ℂ) ≠ 0 := by
    rw [Ne, Nat.cast_eq_zero]
    positivity
  simp only [fwdNp, fwdFftw]
  rw [mul_comm, div_mul_cancel₀ _ hne]

/-- The 2-D all-ones array. -/
def ones2 : Fin 2 → Fin 2 → ℂ := fun _ _ => 1

theorem fftn2_ones_00 : fftn2 ones2 (0 : Fin 2) (0 : Fin 2) = 4 := by
  simp [fftn2, fftAx0, fftAx1, ones2, dker, Fin.sum_univ_two]
  norm_num

/-- A concrete 2-D field holding ones. -/
def s6 : Field2 2 2 where
  data := ones2
  curr := "xspace"
  method := FFTMethod.numpy
  dealias := false
  len0 := 1
  len1 := 1
  bufId := 0
  nextFresh := 1

/-- C6 counterexample: on the all-ones field the two strategies give
different coefficients at the origin (1 versus 4). -/
theorem C6_counterexample : (fwdFftw s6).data 0 0 ≠ (fwdNp s6).data 0 0 := by
  simp only [fwdFftw, fwdNp]
  have h : fftn2 s6.data 0 0 = 4 := fftn2_ones_00
  rw [show ((fftn2 s6.data 0 0 / ((2 * 2 : ℕ) : ℂ)) = 1) from by rw [h]; norm_num, h]
  norm_num

open Classical in
/-- Pointwise data formula for `forward()`: fft value, then mask (when the
callback is installed), then Nyquist zeroing, then epsilon truncation. -/
theorem forwardF_data {n0 n1 : ℕ} (s : Field2 n0 n1) (i : Fin n0) (j : Fin n1) :
    (forwardF s).data i j =
      if Complex.abs (if (i : ℕ) = n0 / 2 ∨ (j : ℕ) = n1 / 2 then 0
          else if s.dealias = true ∧ dmask23 n0 n1 s.len0 s.len1 i j then 0
          else (fftStep s).data i j) < epsF64 then 0
      else (if (i : ℕ) = n0 / 2 ∨ (j : ℕ) = n1 / 2 then 0
          else if s.dealias = true ∧ dmask23 n0 n1 s.len0 s.len1 i j then 0
          else (fftStep s).data i j) := by
  have hL0 : (fftStep s).len0 = s.len0 := fftStep_len0 s
  have hL1 : (fftStep s).len1 = s.len1 := fftStep_len1 s
  unfold forwardF
  cases hd : s.dealias
  · simp [hd, zeroEps, zeroNy]
  · simp [hd, zeroEps, zeroNy, maskApply, hL0, hL1]

/-- C5 (amended): after `forward()` of the plain field all three cleanup
properties hold — masked modes are zero (when the 2/3 callback is
installed), the exact Nyquist index along every axis is zero, and every
retained coefficient has magnitude at least machine epsilon.  (The other
two entry paths into kspace do not enjoy all three: `set('kspace', ·)`
runs only the dealias callback, and the shear forward runs the callback
and Nyquist zeroing but no epsilon truncation.) -/
theorem C5_forward_cleanup {a b : ℕ} (s : Field2 (a + 1) (b + 1)) :
    (s.dealias = true → ∀ i j, dmask23 (a + 1) (b + 1) s.len0 s.len1 i j →
      (forwardF s).data i j = 0) ∧
    (∀ (i : Fin (a + 1)) (j : Fin (b + 1)),
      (i : ℕ) = (a + 1) / 2 ∨ (j : ℕ) = (b + 1) / 2 →
      (forwardF s).data i j = 0) ∧
    (∀ i j, (forwardF s).data i j ≠ 0 →
      epsF64 ≤ Complex.abs ((forwardF s).data i j)) := by
  refine ⟨?_, ?_, ?_⟩
  · intro hd i j hm
    rw [forwardF_data]
    by_cases hny : (i : ℕ) = (a + 1) / 2 ∨ (j : ℕ) = (b + 1) / 2
    · simp [hny]
    · simp [hny, hd, hm]
  · intro i j hny
    rw [forwardF_data]
    simp [hny]
  · intro i j hne
    rw [forwardF_data] at hne ⊢
    by_cases hlt : Complex.abs (if (i : ℕ) = (a + 1) / 2 ∨ (j : ℕ) = (b + 1) / 2 then 0
        else if s.dealias = true ∧ dmask23 (a + 1) (b + 1) s.len0 s.len1 i j then 0
        else (fftStep s).data i j) < epsF64
    · exact absurd (if_pos hlt) hne
    · rw [if_neg hlt]
      exact not_lt.mp hlt

/-- With axis length `2*pi` and 2 samples, the Nyquist wavenumber is 1. -/
theorem kny2pi : knyq 2 (2 * Real.pi) = 1 := by
  rw [knyq]
  field_simp [Real.pi_ne_zero]
  ring

theorem kwave2_zero : kwave 2 (2 * Real.pi) (0 : Fin 2) = 0 := by
  simp [kwave, fftfreq]

theorem kwave2_one : kwave 2 (2 * Real.pi) (1 : Fin 2) = -1 := by
  rw [kwave, kny2pi, fftfreq]
  norm_num

/-- The origin of a 2x2 grid over length `2*pi` is not dealias-masked. -/
theorem dmask2_00 : ¬ dmask23 2 2 (2 * Real.pi) (2 * Real.pi) 0 0 := by
  rw [dmask23]
  push_neg
  rw [kwave2_zero, kny2pi]
  norm_num

/-- The mode at row index 1 of a 2x2 grid over length `2*pi` is masked. -/
theorem dmask2_10 : dmask23 2 2 (2 * Real.pi) (2 * Real.pi) 1 0 := by
  rw [dmask23]
  right
  rw [kwave2_one, kny2pi]
  norm_num

/-- A concrete dealiased 2-D fftw field holding ones in physical space. -/
def s5w : Field2 2 2 where
  data := ones2
  curr := "xspace"
  method := FFTMethod.fftw
  dealias := true
  len0 := 2 * Real.pi
  len1 := 2 * Real.pi
  bufId := 0
  nextFresh := 1

theorem s5w_data00 : (forwardF s5w).data 0 0 = 1 := by
  rw [forwardF_data]
  have hny : ¬ (((0 : Fin 2) : ℕ) = 2 / 2 ∨ ((0 : Fin 2) : ℕ) = 2 / 2) := by decide
  rw [if_neg hny]
  have hmk : ¬ (s5w.dealias = true ∧ dmask23 2 2 s5w.len0 s5w.len1 0 0) := by
    intro h
    exact dmask2_00 h.2
  rw [if_neg hmk]
  have hft : (fftStep s5w).data 0 0 = 1 := by
    show fftn2 s5w.data 0 0 / ((2 * 2 : ℕ) : ℂ) = 1
    rw [show fftn2 s5w.data 0 0 = 4 from fftn2_ones_00]
    norm_num
  rw [hft, if_neg]
  rw [map_one, epsF64]
  norm_num

/-- Witness for C5: on a concrete dealiased field, a masked mode and the
Nyquist mode are zero after forward, and the retained origin coefficient
(of size 1) is at least machine epsilon. -/
theorem C5_forward_cleanup_witness :
    (s5w.dealias = true) ∧
    dmask23 2 2 s5w.len0 s5w.len1 1 0 ∧
    (forwardF s5w).data 1 0 = 0 ∧
    ((1 : Fin 2) : ℕ) = 2 / 2 ∧
    (forwardF s5w).data 1 1 = 0 ∧
    ((forwardF s5w).data 0 0 ≠ 0) ∧
    epsF64 ≤ Complex.abs ((forwardF s5w).data 0 0) :=
  ⟨rfl, dmask2_10, (C5_forward_cleanup s5w).1 rfl 1 0 dmask2_10, by decide,
   (C5_forward_cleanup s5w).2.1 1 1 (Or.inl (by decide)),
   by rw [s5w_data00]; exact one_ne_zero,
   (C5_forward_cleanup s5w).2.2 0 0 (by rw [s5w_data00]; exact one_ne_zero)⟩

/-- An almost-zero spectral array: `2⁻⁵³` (below machine epsilon) at the
origin, zero elsewhere. -/
def tiny2 : Fin 2 → Fin 2 → ℂ :=
  fun i j => if i = 0 ∧ j = 0 then ((((2 : ℝ) ^ (-53 : ℤ)) : ℝ) : ℂ) else 0

open Classical in
/-- Data written by `set('kspace', nd)` on a dealiased 2x2 field: only the
mask runs (no Nyquist zeroing, no epsilon truncation). -/
theorem setitem_kspace_dealias_data (nd : Fin 2 → Fin 2 → ℂ) :
    (setitemF "kspace" nd
        (mkField2 2 2 (2 * Real.pi) (2 * Real.pi) FFTMethod.fftw "2/3")).data
      = fun i j => if dmask23 2 2 (2 * Real.pi) (2 * Real.pi) i j then 0 else nd i j := rfl

open Classical in
/-- C5 counterexample: `set('kspace', ·)` is a transition into SPECTRAL
space, yet it retains a coefficient strictly below machine epsilon (no
`zero_under_eps` runs on this path). -/
theorem C5_counterexample :
    (setitemF "kspace" tiny2
        (mkField2 2 2 (2 * Real.pi) (2 * Real.pi) FFTMethod.fftw "2/3")).data 0 0 ≠ 0 ∧
    Complex.abs ((setitemF "kspace" tiny2
        (mkField2 2 2 (2 * Real.pi) (2 * Real.pi) FFTMethod.fftw "2/3")).data 0 0)
      < epsF64 := by
  rw [show (setitemF "kspace" tiny2
        (mkField2 2 2 (2 * Real.pi) (2 * Real.pi) FFTMethod.fftw "2/3")).data 0 0
      = if dmask23 2 2 (2 * Real.pi) (2 * Real.pi) 0 0 then 0 else tiny2 0 0 from
    congrFun (congrFun (setitem_kspace_dealias_data tiny2) 0) 0]
  rw [if_neg dmask2_00]
  constructor
  · show ((((2 : ℝ) ^ (-53 : ℤ)) : ℝ) : ℂ) ≠ 0
    rw [Ne, Complex.ofReal_eq_zero]
    positivity
  · show Complex.abs ((((2 : ℝ) ^ (-53 : ℤ)) : ℝ) : ℂ) < epsF64
    rw [Complex.abs_ofReal, abs_of_pos (by positivity), epsF64]
    exact zpow_lt_zpow_right₀ (by norm_num) (by norm_num)

/-! ### FourierShearRepresentation (fourier_data.py, lines 210-262)

The shear subclass overrides the transform pair, using numpy's 1-D `fft`
and `ifft` per axis with a time-dependent phase factor.  Note the source
applies `ifft` in `forward` and `fft` in `backward` — the opposite of the
parent class's forward/backward conventions. -/

/-- State of a 2-D `FourierShearRepresentation`: field state plus the
shear rate `sd.parameters['S']` and the external clock `sd.time`. -/
structure ShearField2 (n0 n1 : ℕ) where
  data : Fin n0 → Fin n1 → ℂ
  curr : String
  dealias : Bool
  len0 : ℝ
  len1 : ℝ
  shearRate : ℝ
  time : ℝ

/-- `na.linspace(0., 2*na.pi, n, endpoint=False)[j] = 2*pi*j/n`. -/
def xgrid (n : ℕ) (j : Fin n) : ℝ := 2 * Real.pi * j / n

open Classical in
/-- The `dealias_23` write stage on a shear field. -/
def maskApplyS {n0 n1 : ℕ} (s : ShearField2 n0 n1) : ShearField2 n0 n1 :=
  {s with data := fun i j => if dmask23 n0 n1 s.len0 s.len1 i j then 0 else s.data i j}

/-- The `zero_nyquist` write stage on a shear field. -/
def zeroNyS {n0 n1 : ℕ} (s : ShearField2 n0 n1) : ShearField2 n0 n1 :=
  {s with data := fun i j => if (i : ℕ) = n0 / 2 ∨ (j : ℕ) = n1 / 2 then 0 else s.data i j}

/-- `FourierShearRepresentation.forward` (2-D): `deltay = S * t`;
`self.data = ifft(self.data, axis=0)`; multiply by
`exp(-1j * k['y'] * x * deltay)`; `self.data = ifft(self.data, axis=1)`;
tag `'kspace'`; dealias (its dummy get passes, the tag is already
kspace); `zero_nyquist()`.  There is no `zero_under_eps` here. -/
def shearForward {n0 n1 : ℕ} (s : ShearField2 n0 n1) : ShearField2 n0 n1 :=
  let dy := s.shearRate * s.time
  let d1 := ifftAx0 s.data
  let d2 := fun (i : Fin n0) (j : Fin n1) =>
    d1 i j * Complex.exp (-Complex.I * ((kwave n0 s.len0 i : ℝ) : ℂ)
      * ((xgrid n1 j : ℝ) : ℂ) * ((dy : ℝ) : ℂ))
  let d3 := ifftAx1 d2
  let s1 : ShearField2 n0 n1 := {s with data := d3, curr := "kspace"}
  zeroNyS (if s.dealias then maskApplyS s1 else s1)

/-- `dealias_23` on a shear field, as called from `backward`: the dummy
`self['kspace']` dispatches to the shear `forward` when the tag is not
kspace. -/
def shearDealias23 {n0 n1 : ℕ} (s : ShearField2 n0 n1) : ShearField2 n0 n1 :=
  maskApplyS (if s.curr = "kspace" then s else shearForward s)

/-- `FourierShearRepresentation.backward` (2-D): dealias-if-installed;
`self.data = fft(self.data, axis=1)`; multiply by
`exp(1j * k['y'] * x * deltay)`; `self.data = fft(self.data, axis=0)`;
tag `'xspace'`.  Both steps use the *forward* numpy fft. -/
def shearBackward {n0 n1 : ℕ} (s : ShearField2 n0 n1) : ShearField2 n0 n1 :=
  let dy := s.shearRate * s.time
  let s1 := if s.dealias then shearDealias23 s else s
  let d1 := fftAx1 s1.data
  let d2 := fun (i : Fin n0) (j : Fin n1) =>
    d1 i j * Complex.exp (Complex.I * ((kwave n0 s.len0 i : ℝ) : ℂ)
      * ((xgrid n1 j : ℝ) : ℂ) * ((dy : ℝ) : ℂ))
  let d3 := fftAx0 d2
  {s1 with data := d3, curr := "xspace"}

/-- A 2-D delta array: 1 at the origin, 0 elsewhere. -/
def delta2 : Fin 2 → Fin 2 → ℂ := fun i j => if i = 0 ∧ j = 0 then 1 else 0

/-- A concrete shear field with shear rate 0 holding the delta in
physical space. -/
def s9shear : ShearField2 2 2 where
  data := delta2
  curr := "xspace"
  dealias := true
  len0 := 2 * Real.pi
  len1 := 2 * Real.pi
  shearRate := 0
  time := 0

/-- The corresponding plain field (numpy strategy) on the same data. -/
def s9plain : Field2 2 2 where
  data := delta2
  curr := "xspace"
  method := FFTMethod.numpy
  dealias := true
  len0 := 2 * Real.pi
  len1 := 2 * Real.pi
  bufId := 0
  nextFresh := 1

theorem fftn2_delta_00 : fftn2 delta2 (0 : Fin 2) (0 : Fin 2) = 1 := by
  simp only [fftn2, fftAx0, fftAx1, Fin.sum_univ_two]
  simp [delta2, dker]

open Classical in
/-- Pointwise data formula for the shear `forward`. -/
theorem shearForward_data {n0 n1 : ℕ} (s : ShearField2 n0 n1) (i : Fin n0) (j : Fin n1) :
    (shearForward s).data i j =
      if (i : ℕ) = n0 / 2 ∨ (j : ℕ) = n1 / 2 then 0
      else if s.dealias = true ∧ dmask23 n0 n1 s.len0 s.len1 i j then 0
      else ifftAx1 (fun i j => ifftAx0 s.data i j
        * Complex.exp (-Complex.I * ((kwave n0 s.len0 i : ℝ) : ℂ)
          * ((xgrid n1 j : ℝ) : ℂ) * ((s.shearRate * s.time : ℝ) : ℂ))) i j := by
  unfold shearForward
  cases hd : s.dealias
  · simp [hd, zeroNyS]
  · simp [hd, zeroNyS, maskApplyS]

open Classical in
theorem plainFwd_00 : (forwardF s9plain).data 0 0 = 1 := by
  rw [forwardF_data]
  have hinner : (if ((0 : Fin 2) : ℕ) = 2 / 2 ∨ ((0 : Fin 2) : ℕ) = 2 / 2 then 0
      else if s9plain.dealias = true ∧ dmask23 2 2 s9plain.len0 s9plain.len1 0 0 then 0
      else (fftStep s9plain).data 0 0) = 1 := by
    rw [if_neg (by decide), if_neg (fun h => dmask2_00 h.2)]
    exact fftn2_delta_00
  rw [hinner]
  have hne : ¬ (Complex.abs (1 : ℂ) < epsF64) := by
    rw [map_one, epsF64]
    norm_num
  rw [if_neg hne]

theorem shearFwd_00 : (shearForward s9shear).data 0 0 = 1 / 4 := by
  rw [shearForward_data]
  rw [if_neg (by decide), if_neg (fun h => dmask2_00 h.2)]
  have hdy : ((s9shear.shearRate * s9shear.time : ℝ) : ℂ) = 0 := by
    norm_num [s9shear]
  simp only [hdy, mul_zero, Complex.exp_zero, mul_one]
  show ifftAx1 (fun i j => ifftAx0 delta2 i j) 0 0 = 1 / 4
  simp only [ifftAx1, ifftAx0, Fin.sum_univ_two]
  simp [delta2, iker]
  norm_num

/-- C9: with shear rate 0 the shear `forward` is *not* numerically
equivalent to the plain forward transform on the same data: the source
uses per-axis `ifft` (normalized inverse DFT) in `forward` and `fft` in
`backward` — the opposite direction of the parent transform pair — so at
the delta input the shear path yields 1/4 at the origin where the plain
path yields 1. -/
theorem C9_shear_not_plain :
    (shearForward s9shear).data 0 0 = 1 / 4 ∧
    (forwardF s9plain).data 0 0 = 1 ∧
    (shearForward s9shear).data 0 0 ≠ (forwardF s9plain).data 0 0 := by
  refine ⟨shearFwd_00, plainFwd_00, ?_⟩
  rw [shearFwd_00, plainFwd_00]
  norm_num

/-! ### 1-D FourierRepresentation (the Scenario-A field)

A 1-D field's wavenumber dict is `{'x': k0}` only, but `dealias_23`
unconditionally reads `self.k['y']` right after the `'x'` mask term, so
with the `'2/3'` policy (the constructor default) every `forward()` on a
1-D field raises `KeyError`. -/

/-- 1-D unnormalized forward DFT (numpy `fftn` on one axis). -/
def dft1 {n : ℕ} (x : Fin n → ℂ) (k : Fin n) : ℂ :=
  ∑ j, x j * dker n k j

/-- State of a 1-D `FourierRepresentation`. -/
structure Field1 (n : ℕ) where
  data : Fin n → ℂ
  curr : String
  method : FFTMethod
  dealias : Bool
  len : ℝ

/-- `fwd_fftw` on a 1-D field: unnormalized DFT in place, then division
by the element count. -/
def fwdFftw1 {n : ℕ} (s : Field1 n) : Field1 n :=
  {s with data := fun k => dft1 s.data k / ((n : ℕ) : ℂ)}

/-- `fwd_np` on a 1-D field. -/
def fwdNp1 {n : ℕ} (s : Field1 n) : Field1 n :=
  {s with data := dft1 s.data}

/-- `self.fft()` on a 1-D field. -/
def fftStep1 {n : ℕ} (s : Field1 n) : Field1 n :=
  match s.method with
  | .fftw => fwdFftw1 s
  | .numpy => fwdNp1 s

/-- `zero_nyquist` write stage, 1-D. -/
def zeroNy1 {n : ℕ} (s : Field1 n) : Field1 n :=
  {s with data := fun i => if (i : ℕ) = n / 2 then 0 else s.data i}

open Classical in
/-- `zero_under_eps` write stage, 1-D. -/
def zeroEps1 {n : ℕ} (s : Field1 n) : Field1 n :=
  {s with data := fun i => if Complex.abs (s.data i) < epsF64 then 0 else s.data i}

/-- `forward()` on a 1-D field: fft, tag kspace, then — when the dealias
callback is installed — `dealias_23` evaluates the `'x'` mask term and
next reads `self.k['y']`, absent from a 1-D wavenumber dict: `KeyError`.
Without the callback, the Nyquist and epsilon cleanups run. -/
def forward1 {n : ℕ} (s : Field1 n) : Except String (Field1 n) :=
  let s1 : Field1 n := {fftStep1 s with curr := "kspace"}
  if s.dealias then Except.error ("KeyError: y")
  else Except.ok (zeroEps1 (zeroNy1 s1))

/-- The physical samples of Scenario A: `sin(x)` at `x_j = 2*pi*j/8`. -/
def sin8 : Fin 8 → ℂ := fun j => ((Real.sin (2 * Real.pi * j / 8) : ℝ) : ℂ)

/-- The Scenario-A field: 8 samples over length `2*pi`, holding `sin(x)`
in physical space, with the given dealias token and the default fftw
strategy. -/
def s8f (dealiasing : String) : Field1 8 where
  data := sin8
  curr := "xspace"
  method := FFTMethod.fftw
  dealias := dealiasing == "2/3"
  len := 2 * Real.pi

/-- C8 counterexample: with the constructor's default dealias policy
(`'2/3'`), `forward()` on the 1-D sine field raises `KeyError` instead of
succeeding. -/
theorem C8_counterexample :
    forward1 (s8f "2/3") = Except.error ("KeyError: y") := rfl

theorem kny8 : knyq 8 (2 * Real.pi) = 4 := by
  rw [knyq]
  push_cast
  field_simp [Real.pi_ne_zero]
  ring

theorem kwave8_1 : kwave 8 (2 * Real.pi) (1 : Fin 8) = 1 := by
  rw [kwave, kny8, fftfreq, if_pos (by decide : ((1 : Fin 8) : ℕ) < (8 + 1) / 2)]
  rw [show ((1 : Fin 8) : ℕ) = 1 from rfl]
  norm_num

theorem kwave8_7 : kwave 8 (2 * Real.pi) (7 : Fin 8) = -1 := by
  rw [kwave, kny8, fftfreq, if_neg (by decide : ¬ ((7 : Fin 8) : ℕ) < (8 + 1) / 2)]
  rw [show ((7 : Fin 8) : ℕ) = 7 from rfl]
  norm_num

/-! ### Exact evaluation of the 8-point DFT of `sin(x)` -/

/-- The primitive 8th root of unity underlying the 8-point transform:
`exp(pi*I/4)`. -/
def w8 : ℂ := Complex.exp ((Real.pi : ℂ) * Complex.I / 4)

theorem w8_ne_zero : w8 ≠ 0 := Complex.exp_ne_zero _

theorem w8_zpow (m : ℤ) :
    w8 ^ m = Complex.exp ((m : ℂ) * ((Real.pi : ℂ) * Complex.I / 4)) :=
  (Complex.exp_int_mul _ m).symm

theorem w8_pow8 : w8 ^ (8 : ℤ) = 1 := by
  rw [w8_zpow]
  rw [show ((8 : ℤ) : ℂ) * ((Real.pi : ℂ) * Complex.I / 4)
      = 2 * (Real.pi : ℂ) * Complex.I from by push_cast; ring]
  exact Complex.exp_two_pi_mul_I

theorem w8_zpow_eq_one (m : ℤ) : w8 ^ m = 1 ↔ (8 : ℤ) ∣ m := by
  rw [w8_zpow, Complex.exp_eq_one_iff]
  constructor
  · rintro ⟨t, ht⟩
    have hpiI : (Real.pi : ℂ) * Complex.I ≠ 0 :=
      mul_ne_zero (Complex.ofReal_ne_zero.mpr Real.pi_ne_zero) Complex.I_ne_zero
    have h4 : (m : ℂ) * ((Real.pi : ℂ) * Complex.I)
        = ((8 * t : ℤ) : ℂ) * ((Real.pi : ℂ) * Complex.I) := by
      push_cast
      linear_combination 4 * ht
    have hm : (m : ℂ) = ((8 * t : ℤ) : ℂ) := mul_right_cancel₀ hpiI h4
    exact ⟨t, by exact_mod_cast hm⟩
  · rintro ⟨t, rfl⟩
    refine ⟨t, ?_⟩
    push_cast
    ring

theorem geom8 (z : ℂ) (h8 : z ^ (8 : ℕ) = 1) (h1 : z ≠ 1) :
    ∑ j ∈ Finset.range 8, z ^ j = 0 := by
  rw [geom_sum_eq h1, h8]
  simp

/-- Geometric sum of `w8` powers: 8 on multiples of 8, else 0. -/
theorem w8_geom_sum (m : ℤ) :
    ∑ j ∈ Finset.range 8, w8 ^ (m * (j : ℤ)) = if (8 : ℤ) ∣ m then (8 : ℂ) else 0 := by
  by_cases hm : (8 : ℤ) ∣ m
  · rw [if_pos hm]
    have hone : ∀ j ∈ Finset.range 8, w8 ^ (m * (j : ℤ)) = 1 := by
      intro j _
      rw [zpow_mul, (w8_zpow_eq_one m).mpr hm, one_zpow]
    rw [Finset.sum_congr rfl hone]
    norm_num
  · rw [if_neg hm]
    have hz1 : w8 ^ m ≠ 1 := fun h => hm ((w8_zpow_eq_one m).mp h)
    have hz8 : (w8 ^ m) ^ (8 : ℕ) = 1 := by
      have h1 : (w8 ^ m) ^ (8 : ℕ) = w8 ^ ((8 : ℤ) * m) := by
        rw [← zpow_natCast (w8 ^ m) 8, ← zpow_mul]
        congr 1
        push_cast
        ring
      rw [h1, zpow_mul, w8_pow8, one_zpow]
    have hsum : ∀ j ∈ Finset.range 8, w8 ^ (m * (j : ℤ)) = (w8 ^ m) ^ j := by
      intro j _
      rw [zpow_mul, zpow_natCast]
    rw [Finset.sum_congr rfl hsum]
    exact geom8 _ hz8 hz1

/-- One DFT term of the sine input, as a difference of `w8` powers. -/
theorem sin8_term (k j : ℕ) :
    ((Real.sin (2 * Real.pi * j / 8) : ℝ) : ℂ) * dker 8 k j
      = Complex.I / 2 * (w8 ^ ((-(1 + (k : ℤ))) * j) - w8 ^ ((1 - (k : ℤ)) * j)) := by
  have hz := w8_ne_zero
  have hsin : ((Real.sin (2 * Real.pi * j / 8) : ℝ) : ℂ)
      = (w8 ^ (-(j : ℤ)) - w8 ^ ((j : ℕ) : ℤ)) * Complex.I / 2 := by
    rw [Complex.ofReal_sin]
    unfold Complex.sin
    rw [w8_zpow, w8_zpow]
    have e1 : -((2 * Real.pi * (j : ℝ) / 8 : ℝ) : ℂ) * Complex.I
        = ((-(j : ℤ) : ℤ) : ℂ) * ((Real.pi : ℂ) * Complex.I / 4) := by
      push_cast
      ring
    have e2 : ((2 * Real.pi * (j : ℝ) / 8 : ℝ) : ℂ) * Complex.I
        = (((j : ℕ) : ℤ) : ℂ) * ((Real.pi : ℂ) * Complex.I / 4) := by
      push_cast
      ring
    rw [e1, e2]
  have hk : dker 8 k j = w8 ^ (-((k : ℤ) * j)) := by
    rw [dker, w8_zpow]
    congr 1
    push_cast
    ring
  rw [hsin, hk]
  have hA : w8 ^ (-(j : ℤ)) * w8 ^ (-((k : ℤ) * j)) = w8 ^ ((-(1 + (k : ℤ))) * j) := by
    rw [← zpow_add₀ hz]
    congr 1
    ring
  have hB : w8 ^ ((j : ℕ) : ℤ) * w8 ^ (-((k : ℤ) * j)) = w8 ^ ((1 - (k : ℤ)) * j) := by
    rw [← zpow_add₀ hz]
    congr 1
    ring
  calc (w8 ^ (-(j : ℤ)) - w8 ^ ((j : ℕ) : ℤ)) * Complex.I / 2 * w8 ^ (-((k : ℤ) * j))
      = Complex.I / 2 * (w8 ^ (-(j : ℤ)) * w8 ^ (-((k : ℤ) * j))
          - w8 ^ ((j : ℕ) : ℤ) * w8 ^ (-((k : ℤ) * j))) := by ring
    _ = Complex.I / 2 * (w8 ^ ((-(1 + (k : ℤ))) * j) - w8 ^ ((1 - (k : ℤ)) * j)) := by
        rw [hA, hB]

theorem dft1_sin8_sum (k : ℕ) :
    ∑ j ∈ Finset.range 8, (((Real.sin (2 * Real.pi * j / 8) : ℝ) : ℂ) * dker 8 k j)
      = Complex.I / 2 * ((if (8 : ℤ) ∣ (-(1 + (k : ℤ))) then (8 : ℂ) else 0)
          - (if (8 : ℤ) ∣ (1 - (k : ℤ)) then (8 : ℂ) else 0)) := by
  rw [Finset.sum_congr rfl (fun j _ => sin8_term k j)]
  rw [← Finset.mul_sum, Finset.sum_sub_distrib, w8_geom_sum, w8_geom_sum]

/-- The 8-point unnormalized DFT of `sin(x)`: `-4i` at wavenumber index 1,
`+4i` at index 7, zero elsewhere. -/
theorem dft1_sin8 (k : Fin 8) :
    dft1 sin8 k = if k = (1 : Fin 8) then -(4 * Complex.I)
      else if k = (7 : Fin 8) then 4 * Complex.I else 0 := by
  have h0 : dft1 sin8 k
      = ∑ j ∈ Finset.range 8,
          (((Real.sin (2 * Real.pi * j / 8) : ℝ) : ℂ) * dker 8 (k : ℕ) j) := by
    unfold dft1
    rw [← Fin.sum_univ_eq_sum_range
      (fun j => ((Real.sin (2 * Real.pi * j / 8) : ℝ) : ℂ) * dker 8 (k : ℕ) j) 8]
    rfl
  rw [h0, dft1_sin8_sum]
  fin_cases k <;>
    norm_num [Fin.ext_iff, show ((7 : Fin 8) : ℕ) = 7 from rfl,
      show ((1 : Fin 8) : ℕ) = 1 from rfl] <;>
    ring

/-- The state produced by the successful `forward()` of the no-dealias
Scenario-A field. -/
def r8 : Field1 8 := zeroEps1 (zeroNy1 ({fftStep1 (s8f "none") with curr := "kspace"}))

theorem forward1_s8 : forward1 (s8f "none") = Except.ok r8 := rfl

theorem r8_base (k : Fin 8) :
    ({fftStep1 (s8f "none") with curr := "kspace"} : Field1 8).data k
      = dft1 sin8 k / ((8 : ℕ) : ℂ) := rfl

theorem habs_neg4I8 : Complex.abs (-(4 * Complex.I) / 8) = 1 / 2 := by
  rw [map_div₀, Complex.abs.map_neg, map_mul, Complex.abs_I, Complex.abs_ofNat,
    Complex.abs_ofNat]
  norm_num

theorem habs_4I8 : Complex.abs ((4 * Complex.I) / 8) = 1 / 2 := by
  rw [map_div₀, map_mul, Complex.abs_I, Complex.abs_ofNat, Complex.abs_ofNat]
  norm_num

theorem r8_data (k : Fin 8) :
    r8.data k = if k = (1 : Fin 8) then -(4 * Complex.I) / 8
      else if k = (7 : Fin 8) then (4 * Complex.I) / 8 else 0 := by
  have hny : (zeroNy1 ({fftStep1 (s8f "none") with curr := "kspace"} : Field1 8)).data k
      = if (k : ℕ) = 4 then 0 else dft1 sin8 k / ((8 : ℕ) : ℂ) := by
    simp only [zeroNy1]
    rw [r8_base]
  show (zeroEps1 (zeroNy1 ({fftStep1 (s8f "none") with curr := "kspace"}))).data k = _
  simp only [zeroEps1]
  rw [hny, dft1_sin8]
  by_cases h1 : k = 1
  · subst h1
    rw [if_pos rfl]
    rw [if_neg (by decide : ¬ ((1 : Fin 8) : ℕ) = 4)]
    rw [Nat.cast_ofNat]
    have hne : ¬ (Complex.abs (-(4 * Complex.I) / 8) < epsF64) := by
      rw [habs_neg4I8, epsF64]
      norm_num
    rw [if_neg hne, if_pos rfl]
  · by_cases h7 : k = 7
    · subst h7
      rw [if_neg h1, if_pos rfl]
      rw [if_neg (by decide : ¬ ((7 : Fin 8) : ℕ) = 4)]
      rw [Nat.cast_ofNat]
      have hne : ¬ (Complex.abs ((4 * Complex.I) / 8) < epsF64) := by
        rw [habs_4I8, epsF64]
        norm_num
      rw [if_neg hne, if_neg h1, if_pos rfl]
    · rw [if_neg h1, if_neg h7, zero_div, ite_self, ite_self]
      rw [if_neg h1, if_neg h7]

/-- C8 (amended): with dealiasing disabled — the constructor's default
`'2/3'` policy raises `KeyError` on a 1-D field, see the counterexample —
`forward()` on the 8-sample `sin(x)` field over length `2*pi` succeeds,
and exactly two spectral entries are nonzero: indices 1 and 7, located at
wavenumbers `+1` and `-1`, with equal magnitude and conjugate phases. -/
theorem C8_sin_spectrum :
    forward1 (s8f "none") = Except.ok r8 ∧
    r8.data 1 ≠ 0 ∧ r8.data 7 ≠ 0 ∧
    (∀ k : Fin 8, k ≠ 1 → k ≠ 7 → r8.data k = 0) ∧
    kwave 8 ((s8f "none").len) 1 = 1 ∧
    kwave 8 ((s8f "none").len) 7 = -1 ∧
    Complex.abs (r8.data 1) = Complex.abs (r8.data 7) ∧
    r8.data 7 = cconj (r8.data 1) := by
  have h1 : r8.data 1 = -(4 * Complex.I) / 8 := by
    rw [r8_data, if_pos rfl]
  have h7 : r8.data 7 = (4 * Complex.I) / 8 := by
    rw [r8_data, if_neg (by decide : ¬ (7 : Fin 8) = 1), if_pos rfl]
  refine ⟨forward1_s8, ?_, ?_, ?_, kwave8_1, kwave8_7, ?_, ?_⟩
  · rw [h1]
    simp [div_eq_zero_iff, Complex.I_ne_zero]
  · rw [h7]
    simp [div_eq_zero_iff, Complex.I_ne_zero]
  · intro k hk1 hk7
    rw [r8_data, if_neg hk1, if_neg hk7]
  · rw [h1, h7, habs_neg4I8, habs_4I8]
  · rw [h1, h7]
    simp [cconj, map_div₀, map_mul, Complex.conj_I, map_ofNat]

/-- Witness for C8: the inner quantified conjunct at a concrete index. -/
theorem C8_sin_spectrum_witness :
    ((3 : Fin 8) ≠ 1) ∧ ((3 : Fin 8) ≠ 7) ∧ r8.data 3 = 0 :=
  ⟨by decide, by decide, C8_sin_spectrum.2.2.2.1 3 (by decide) (by decide)⟩
